import Mathlib

/-!
Verification of the group-guard moderation bot (src/bot.py) against its
natural-language specification.

The embedding models the pure decision core of the bot:

* `normalize_text` — src/bot.py lines 55-57 (strip, lower, collapse runs of
  whitespace to a single space);
* `prune_old` / the spam-tracker step (`observe`) — lines 59-62 and 184-199;
* the mention matcher `AT_RE` — line 45 (modelled by its matching
  semantics as `containsMention`);
* the link matcher `LINK_RE` — lines 37-44 (modelled by its matching
  semantics as `containsLink`);
* the per-chat badword matcher: `build_re` (lines 71-75), the cache and
  `get_badword_re` (lines 69, 77-84), with the compiled pattern
  `(?i)(?<!\w)(w1|w2|...)(?!\w)` modelled by its matching semantics;
* the message handler `guard` — lines 164-199;
* the command handlers `bad_add` (lines 114-129) and `bad_del` (131-139),
  with the Mongo collection modelled as a list of (chat_id, word) rows.

Character classes (`\w`, `\s`, case folding) are modelled over ASCII, the
alphabet all claims are about; timestamps (Python floats from `time.time()`)
are modelled as integers, which is faithful for the integral instants the
claims use since only orderings and differences of timestamps are compared.
A regex `re.search` is modelled denotationally: the text matches iff some
span of it belongs to the pattern's language — equivalent to the
backtracking search for the patterns at hand, which are used only for their
boolean outcome.
-/

namespace Bot

/-- ASCII model of the regex class `\s` (space, tab, newline, carriage
return, vertical tab, form feed), which is also the whitespace stripped by
Python's `str.strip`. -/
def isSpc (c : Char) : Bool :=
  decide (c.toNat = 32 ∨ c.toNat = 9 ∨ c.toNat = 10 ∨ c.toNat = 13 ∨
    c.toNat = 11 ∨ c.toNat = 12)

/-- ASCII case folding, as performed by Python's `str.lower` and by the
`(?i)` flag on the regexes (`Char.toLower` lowers exactly the basic latin
letters). -/
def lowerChar (c : Char) : Char := c.toLower

/-- ASCII model of the regex class `\w`: letters, digits, underscore. -/
def wordChar (c : Char) : Bool :=
  decide ((65 ≤ c.toNat ∧ c.toNat ≤ 90) ∨ (97 ≤ c.toNat ∧ c.toNat ≤ 122) ∨
    (48 ≤ c.toNat ∧ c.toNat ≤ 57) ∨ c.toNat = 95)

/-- ASCII letters: the class `[a-z]` under `(?i)`. -/
def isAlphaChar (c : Char) : Bool :=
  decide ((65 ≤ c.toNat ∧ c.toNat ≤ 90) ∨ (97 ≤ c.toNat ∧ c.toNat ≤ 122))

/-- The class `[a-z0-9-]` under `(?i)`: characters allowed in a domain
label in `LINK_RE`. -/
def labelChar (c : Char) : Bool :=
  decide ((65 ≤ c.toNat ∧ c.toNat ≤ 90) ∨ (97 ≤ c.toNat ∧ c.toNat ≤ 122) ∨
    (48 ≤ c.toNat ∧ c.toNat ≤ 57) ∨ c.toNat = 45)

/-- The regex class `\S`. -/
def nonSpc (c : Char) : Bool := !isSpc c

/-- `s.strip()`: drop whitespace from both ends. -/
def stripL (l : List Char) : List Char :=
  ((l.dropWhile isSpc).reverse.dropWhile isSpc).reverse

/-- `re.sub(r"\s+", " ", s)`: replace every maximal run of whitespace by a
single ASCII space. -/
def collapse : List Char → List Char
  | [] => []
  | [c] => [if isSpc c then ' ' else c]
  | a :: b :: rest =>
    if isSpc a then
      (if isSpc b then collapse (b :: rest) else ' ' :: collapse (b :: rest))
    else a :: collapse (b :: rest)

/-- `normalize_text` (src/bot.py lines 55-57) on the character list:
strip, lower, collapse whitespace runs. -/
def normalizeL (l : List Char) : List Char :=
  collapse ((stripL l).map lowerChar)

/-- `normalize_text(s)` — src/bot.py lines 55-57. -/
def normalize_text (s : String) : String := String.mk (normalizeL s.data)

/-- ASCII lowering of a whole string (`(?i)` comparison reference). -/
def lowerStr (s : String) : String := String.mk (s.data.map lowerChar)

/-! ### The mention matcher `AT_RE = (?<!\w)@\w{2,32}\b` (line 45)

`AT_RE.search(text)` succeeds iff the text has an `@` that is not preceded
by a word character and whose following maximal run of word characters has
length between 2 and 32 (the trailing `\b` forces the `\w{2,32}` group to
end exactly at the end of that run). -/

/-- Length of the maximal run of word characters at the head of the list. -/
def wordRun : List Char → Nat
  | [] => 0
  | c :: rest => if wordChar c then wordRun rest + 1 else 0

/-- Scan for a match of `AT_RE`, carrying the previously seen character
(`none` at the start of the text) for the `(?<!\w)` lookbehind. -/
def mentionHit : Option Char → List Char → Bool
  | _, [] => false
  | prev, c :: rest =>
    (decide (c = '@') &&
      (match prev with
       | some p => !wordChar p
       | none => true) &&
      decide (2 ≤ wordRun rest) && decide (wordRun rest ≤ 32)) ||
    mentionHit (some c) rest

/-- `AT_RE.search(text) is not None` — src/bot.py line 45 / line 174. -/
def containsMention (s : String) : Bool := mentionHit none s.data

/-! ### The link matcher `LINK_RE` (lines 37-44)

`(?i)\b(https?://\S+|www\.\S+|t\.me/\S+|telegram\.me/\S+|`
`(?:[a-z0-9-]+\.)+[a-z]{2,}(?:/\S*)?)\b`

`LINK_RE.search(text)` succeeds iff some span of the text, with a word
boundary on each side, belongs to the language of the alternation. -/

/-- Case-insensitive match of a literal (given lowercase) against the head
of the text. -/
def litPrefixCI : List Char → List Char → Bool
  | [], _ => true
  | _ :: _, [] => false
  | p :: ps, c :: cs => decide (lowerChar c = p) && litPrefixCI ps cs

/-- Language of `[a-z]{2,}(?:/\S*)?` under `(?i)`, matched against the
whole remaining span: a TLD of 2+ letters, optionally followed by `/` and
non-space characters. -/
def tldPath (w : List Char) : Bool :=
  (List.range (w.length + 1)).any fun m =>
    decide (2 ≤ m) && (w.take m).all isAlphaChar &&
      (match w.drop m with
       | [] => true
       | c :: rest => decide (c = '/') && rest.all nonSpc)

/-- Language of `(?:[a-z0-9-]+\.)+[a-z]{2,}(?:/\S*)?` under `(?i)`, matched
against the whole span: since `.` is not a label character, each
`[a-z0-9-]+\.` group is forced to consume a maximal label run followed by
a dot. -/
def domSeqF : Nat → List Char → Bool
  | 0, _ => false
  | fuel + 1, w =>
    match w.dropWhile labelChar with
    | c :: tail =>
      !(w.takeWhile labelChar).isEmpty && decide (c = '.') &&
        (tldPath tail || domSeqF fuel tail)
    | [] => false

/-- See `domSeqF`: the recursion consumes at least two characters per step,
so `w.length` is always enough fuel. -/
def domSeq (w : List Char) : Bool := domSeqF w.length w

/-- Language of the whole `LINK_RE` alternation, matched against a span. -/
def linkAltB (w : List Char) : Bool :=
  (litPrefixCI "http://".data w && decide (7 < w.length) &&
    (w.drop 7).all nonSpc) ||
  (litPrefixCI "https://".data w && decide (8 < w.length) &&
    (w.drop 8).all nonSpc) ||
  (litPrefixCI "www.".data w && decide (4 < w.length) &&
    (w.drop 4).all nonSpc) ||
  (litPrefixCI "t.me/".data w && decide (5 < w.length) &&
    (w.drop 5).all nonSpc) ||
  (litPrefixCI "telegram.me/".data w && decide (12 < w.length) &&
    (w.drop 12).all nonSpc) ||
  domSeq w

/-- Whether position `i` of the list holds a word character (out of range
counts as non-word, as at the ends of the text). -/
def wordAt (l : List Char) (i : Nat) : Bool :=
  match l.get? i with
  | some c => wordChar c
  | none => false

/-- The regex word boundary `\b` before position `i`: exactly one of the
character at `i-1` and the character at `i` is a word character. -/
def wordBdry (l : List Char) (i : Nat) : Bool :=
  wordAt l i != (if i = 0 then false else wordAt l (i - 1))

/-- `LINK_RE.search(text) is not None` — src/bot.py lines 37-44 / 177. -/
def containsLink (s : String) : Bool :=
  (List.range (s.data.length + 1)).any fun i =>
    (List.range (s.data.length + 1)).any fun j =>
      wordBdry s.data i && wordBdry s.data j &&
        linkAltB ((s.data.drop i).take (j - i))

/-! ### The spam tracker (lines 48-62, 184-199) -/

/-- `SeenMsg` — src/bot.py lines 48-51. -/
structure SeenMsg where
  last_ts : Int
  count : Nat
deriving DecidableEq

/-- A key of the `SEEN` dict: `(chat_id, user_id, normalized_text)`. -/
abbrev SpamKey := Int × Int × String

/-- The `SEEN` dict, modelled as an association list with unique keys. -/
abbrev Table := List (SpamKey × SeenMsg)

/-- Dictionary lookup on an association list. -/
def dlookup {α β : Type} [DecidableEq α] : List (α × β) → α → Option β
  | [], _ => none
  | (a, b) :: rest, k => if a = k then some b else dlookup rest k

/-- Dictionary assignment on an association list (replaces the binding in
place if present, appends otherwise — Python dict semantics). -/
def dset {α β : Type} [DecidableEq α] : List (α × β) → α → β → List (α × β)
  | [], k, v => [(k, v)]
  | (a, b) :: rest, k, v =>
    if a = k then (k, v) :: rest else (a, b) :: dset rest k v

/-- `prune_old(now)` — src/bot.py lines 59-62: delete every entry with
`now - last_ts > SPAM_WINDOW`. -/
def prune_old (window : Int) (now : Int) (t : Table) : Table :=
  t.filter fun e => !decide (window < now - e.2.last_ts)

/-- Verdict of one spam-tracker observation: `flag` is the case where the
guard deletes (`seen.count >= SPAM_REPEAT`), `allow` is every other case. -/
inductive Verdict
  | allow
  | flag
deriving DecidableEq

/-- One spam-tracker observation: the tracking step of `guard`
(src/bot.py lines 184-199) — prune, then insert / bump / reset the entry of
`key` and report whether the repeat threshold was reached. -/
def observe (window : Int) (threshold : Nat) (key : SpamKey) (now : Int)
    (t : Table) : Verdict × Table :=
  match dlookup (prune_old window now t) key with
  | none => (.allow, dset (prune_old window now t) key ⟨now, 1⟩)
  | some seen =>
    if now - seen.last_ts ≤ window then
      (if threshold ≤ seen.count + 1 then .flag else .allow,
        dset (prune_old window now t) key ⟨now, seen.count + 1⟩)
    else (.allow, dset (prune_old window now t) key ⟨now, 1⟩)

/-! ### The badword store, matcher cache and matcher (lines 64-84)

The Mongo collection `col` is modelled as a list of `(chat_id, word)` rows
(the `created_at` field is never read by the moderation logic and is not
modelled). A compiled badword pattern `(?i)(?<!\w)(w1|...|wn)(?!\w)` is
modelled by its ordered word list together with its matching semantics
(`matcherSearch`). -/

/-- The badword store: the rows of the Mongo collection. -/
abbrev Store := List (Int × String)

/-- `col.find({"chat_id": chat_id})`, projected to the words. -/
def storeWords (st : Store) (chat : Int) : List String :=
  (st.filter fun r => decide (r.1 = chat)).map Prod.snd

/-- `BADWORD_RE_CACHE` (line 69): chat id → compiled pattern or the `None`
marker. A key can be absent (not loaded yet) or mapped to `none`
(loaded, chat has no badwords). -/
abbrev Cache := List (Int × Option (List String))

/-- Ordering "longer first" used by `build_re`. -/
def lenGE (a b : String) : Prop := b.length ≤ a.length

instance : DecidableRel lenGE := fun a b =>
  inferInstanceAs (Decidable (b.length ≤ a.length))

instance : IsTotal String lenGE :=
  ⟨fun a b => (Nat.le_total b.length a.length).imp id id⟩

instance : IsTrans String lenGE :=
  ⟨fun _ _ _ h1 h2 => Nat.le_trans h2 h1⟩

/-- `build_re(words)` — src/bot.py lines 71-75: `None` when the word list
is empty, otherwise the pattern whose alternation lists the distinct words
longest-first (`sorted(set(words), key=len, reverse=True)`; ties are in
unspecified set order, which the matching semantics ignores). -/
def build_re (words : List String) : Option (List String) :=
  match words with
  | [] => none
  | _ :: _ => some (List.insertionSort lenGE words.dedup)

/-- `refresh_cache(chat_id)` — src/bot.py lines 77-79. -/
def refresh_cache (st : Store) (cache : Cache) (chat : Int) : Cache :=
  dset cache chat (build_re (storeWords st chat))

/-- `get_badword_re(chat_id)` — src/bot.py lines 81-84: refresh on a cache
miss, then return the cached value. -/
def get_badword_re (st : Store) (cache : Cache) (chat : Int) :
    Option (List String) × Cache :=
  let cache2 :=
    if (dlookup cache chat).isNone then refresh_cache st cache chat else cache
  ((dlookup cache2 chat).getD none, cache2)

/-- Case-insensitive equality of two character lists (ASCII fold). -/
def ciEqList (a b : List Char) : Bool :=
  decide (a.map lowerChar = b.map lowerChar)

/-- One candidate match of the pattern `(?i)(?<!\w)(…|w|…)(?!\w)`: word `w`
occurs case-insensitively at position `i`, not preceded and not followed by
a word character. -/
def hitAt (l : List Char) (i : Nat) (w : List Char) : Bool :=
  decide (i + w.length ≤ l.length) &&
    ciEqList ((l.drop i).take w.length) w &&
    (if i = 0 then true else !wordAt l (i - 1)) &&
    !wordAt l (i + w.length)

/-- `pattern.search(text) is not None` for a compiled badword pattern. -/
def matcherSearch (ws : List String) (s : String) : Bool :=
  (List.range (s.data.length + 1)).any fun i =>
    ws.any fun w => hitAt s.data i w.data

/-- `bw and bw.search(text)` (line 181): the `None` marker never matches. -/
def matcherHits : Option (List String) → String → Bool
  | none, _ => false
  | some ws, s => matcherSearch ws s

/-! ### The message handler `guard` (lines 164-199) -/

/-- Telegram chat types. -/
inductive ChatType
  | group
  | supergroup
  | private_
  | channel
deriving DecidableEq

/-- The slice of an inbound update that `guard` reads. `text = none` models
a non-text message (`msg.text is None`); note that `if not msg.text` is
also true for the empty string. -/
structure Msg where
  chat_id : Int
  from_user : Int
  chat_type : ChatType
  text : Option String

/-- The process-wide mutable state read and written by `guard`. -/
structure GuardState where
  cache : Cache
  seen : Table
deriving DecidableEq

/-- Observable outcome of `guard` on one message: returned without doing
anything (`ignored`), attempted deletion (`deleted`), or fell through with
no deletion (`allowed`). -/
inductive GuardAction
  | ignored
  | deleted
  | allowed
deriving DecidableEq

/-- `guard(update, context)` — src/bot.py lines 164-199. -/
def guard (window : Int) (threshold : Nat) (st : Store) (now : Int)
    (gs : GuardState) (m : Msg) : GuardAction × GuardState :=
  match m.text with
  | none => (.ignored, gs)
  | some text =>
    if text = "" then (.ignored, gs)
    else if ¬(m.chat_type = .group ∨ m.chat_type = .supergroup) then
      (.ignored, gs)
    else if containsMention text then (.deleted, gs)
    else if containsLink text then (.deleted, gs)
    else if matcherHits (get_badword_re st gs.cache m.chat_id).1 text then
      (.deleted, ⟨(get_badword_re st gs.cache m.chat_id).2, gs.seen⟩)
    else
      (if (observe window threshold
            (m.chat_id, m.from_user, normalize_text text) now gs.seen).1 = .flag
        then .deleted else .allowed,
       ⟨(get_badword_re st gs.cache m.chat_id).2,
        (observe window threshold
          (m.chat_id, m.from_user, normalize_text text) now gs.seen).2⟩)

/-! ### Command handlers `bad_add` and `bad_del` (lines 114-139)

The permission check `is_admin_or_sudo` is a collaborator (network call);
its boolean outcome is passed in as `priv`. Replies are modelled as an
inductive tag. -/

/-- The possible replies of the two handlers. -/
inductive CmdReply
  | silent
  | usage
  | added (w : String)
  | deletedOk
  | notFound
deriving DecidableEq

/-- `col.update_one({chat_id, word}, {$setOnInsert: …}, upsert=True)`:
insert the row if absent, change nothing if present. -/
def upsert_word (st : Store) (chat : Int) (w : String) : Store :=
  if (chat, w) ∈ st then st else st ++ [(chat, w)]

/-- `col.delete_one({chat_id, word})`: remove at most one matching row,
returning the new store and the deleted count. -/
def delete_one (st : Store) (chat : Int) (w : String) : Store × Nat :=
  match st with
  | [] => ([], 0)
  | r :: rest =>
    if r.1 = chat ∧ r.2 = w then (rest, 1)
    else
      let p := delete_one rest chat w
      (r :: p.1, p.2)

/-- `bad_add` — src/bot.py lines 114-129. -/
def bad_add (priv : Bool) (chat : Int) (args : List String) (st : Store)
    (cache : Cache) : Store × Cache × CmdReply :=
  if !priv then (st, cache, .silent)
  else if args.isEmpty then (st, cache, .usage)
  else
    let w := normalize_text (String.intercalate " " args)
    let st2 := upsert_word st chat w
    (st2, refresh_cache st2 cache chat, .added w)

/-- `bad_del` — src/bot.py lines 131-139: no argument-count check. -/
def bad_del (priv : Bool) (chat : Int) (args : List String) (st : Store)
    (cache : Cache) : Store × Cache × CmdReply :=
  if !priv then (st, cache, .silent)
  else
    let w := normalize_text (String.intercalate " " args)
    let p := delete_one st chat w
    (p.1, refresh_cache p.1 cache chat,
      if p.2 ≠ 0 then .deletedOk else .notFound)

/-- The list does not start with a whitespace character (used to state the
shape invariants of normalized text). -/
def noLeadSpc : List Char → Prop
  | [] => True
  | c :: _ => isSpc c = false

/-- The list does not end with a whitespace character. -/
def noTrailSpc (l : List Char) : Prop := noLeadSpc l.reverse

/-! ## Theorems -/

/-! ### Character-level lemmas -/

theorem toNat_charOfNat {n : Nat} (h : n.isValidChar) :
    (Char.ofNat n).toNat = n := by
  unfold Char.ofNat
  rw [dif_pos h]
  rfl

theorem toNat_lowerChar (c : Char) :
    (lowerChar c).toNat =
      if 65 ≤ c.toNat ∧ c.toNat ≤ 90 then c.toNat + 32 else c.toNat := by
  by_cases h : 65 ≤ c.toNat ∧ c.toNat ≤ 90
  · have h1 : lowerChar c = Char.ofNat (c.toNat + 32) := by
      unfold lowerChar Char.toLower
      exact if_pos ⟨h.1, h.2⟩
    rw [h1, if_pos h]
    exact toNat_charOfNat (Or.inl (by omega))
  · have h1 : lowerChar c = c := by
      unfold lowerChar Char.toLower
      exact if_neg fun hc => h ⟨hc.1, hc.2⟩
    rw [h1, if_neg h]

theorem char_eq_of_toNat_eq {c d : Char} (h : c.toNat = d.toNat) : c = d := by
  have h2 := congrArg Char.ofNat h
  rwa [Char.ofNat_toNat, Char.ofNat_toNat] at h2

theorem char_eq_iff_toNat {c d : Char} : c = d ↔ c.toNat = d.toNat :=
  ⟨fun h => by rw [h], char_eq_of_toNat_eq⟩

theorem lowerChar_lowerChar (c : Char) : lowerChar (lowerChar c) = lowerChar c := by
  apply char_eq_of_toNat_eq
  have h1 := toNat_lowerChar c
  have h2 := toNat_lowerChar (lowerChar c)
  rw [h1] at h2
  rw [h2, h1]
  by_cases hp : 65 ≤ c.toNat ∧ c.toNat ≤ 90
  · simp only [if_pos hp]
    rw [if_neg (by omega)]
  · simp only [if_neg hp]

theorem isSpc_lowerChar (c : Char) : isSpc (lowerChar c) = isSpc c := by
  simp only [isSpc, toNat_lowerChar, decide_eq_decide]
  split <;> omega

theorem wordChar_lowerChar (c : Char) : wordChar (lowerChar c) = wordChar c := by
  simp only [wordChar, toNat_lowerChar, decide_eq_decide]
  split <;> omega

theorem isAlphaChar_lowerChar (c : Char) :
    isAlphaChar (lowerChar c) = isAlphaChar c := by
  simp only [isAlphaChar, toNat_lowerChar, decide_eq_decide]
  split <;> omega

theorem labelChar_lowerChar (c : Char) : labelChar (lowerChar c) = labelChar c := by
  simp only [labelChar, toNat_lowerChar, decide_eq_decide]
  split <;> omega

theorem nonSpc_lowerChar (c : Char) : nonSpc (lowerChar c) = nonSpc c := by
  simp only [nonSpc, isSpc_lowerChar]

theorem lowerChar_eq_iff {d : Char} (c : Char)
    (hd1 : ¬(65 ≤ d.toNat ∧ d.toNat ≤ 90))
    (hd2 : ¬(97 ≤ d.toNat ∧ d.toNat ≤ 122)) :
    lowerChar c = d ↔ c = d := by
  rw [char_eq_iff_toNat, char_eq_iff_toNat, toNat_lowerChar]
  split <;> omega

/-! ### Normalization lemmas (towards C7) -/

theorem noLead_dropWhile (l : List Char) : noLeadSpc (l.dropWhile isSpc) := by
  induction l with
  | nil => trivial
  | cons c r ih =>
    cases hc : isSpc c with
    | true =>
      rw [List.dropWhile_cons, if_pos hc]
      exact ih
    | false =>
      rw [List.dropWhile_cons, if_neg (by simp [hc])]
      exact hc

theorem dropWhile_of_noLead {l : List Char} (h : noLeadSpc l) :
    l.dropWhile isSpc = l := by
  cases l with
  | nil => rfl
  | cons c r =>
    have hc : isSpc c = false := h
    rw [List.dropWhile_cons, if_neg (by simp [hc])]

theorem dropWhile_append_nonspc {c : Char} (hc : isSpc c = false)
    (xs : List Char) :
    (xs ++ [c]).dropWhile isSpc = xs.dropWhile isSpc ++ [c] := by
  induction xs with
  | nil => simp [List.dropWhile_cons, hc]
  | cons x r ih =>
    cases hx : isSpc x with
    | true => simp [List.dropWhile_cons, hx, ih]
    | false => simp [List.dropWhile_cons, hx]

theorem noLead_stripL (l : List Char) : noLeadSpc (stripL l) := by
  unfold stripL
  have hA := noLead_dropWhile l
  cases hA2 : l.dropWhile isSpc with
  | nil => simp; trivial
  | cons c r =>
    have hc : isSpc c = false := by rw [hA2] at hA; exact hA
    rw [List.reverse_cons, dropWhile_append_nonspc hc, List.reverse_append]
    exact hc

theorem noTrail_stripL (l : List Char) : noTrailSpc (stripL l) := by
  unfold noTrailSpc stripL
  rw [List.reverse_reverse]
  exact noLead_dropWhile _

theorem noLead_map {l : List Char} (h : noLeadSpc l) :
    noLeadSpc (l.map lowerChar) := by
  cases l with
  | nil => trivial
  | cons c r =>
    show isSpc (lowerChar c) = false
    rw [isSpc_lowerChar]
    exact h

theorem noTrail_map {l : List Char} (h : noTrailSpc l) :
    noTrailSpc (l.map lowerChar) := by
  unfold noTrailSpc at *
  rw [← List.map_reverse]
  exact noLead_map h

theorem collapse_cons_nonspc {b : Char} (hb : isSpc b = false) (r : List Char) :
    collapse (b :: r) = b :: collapse r := by
  cases r with
  | nil => simp [collapse, hb]
  | cons c r2 => simp [collapse, hb]

theorem collapse_ne_nil {l : List Char} (h : l ≠ []) : collapse l ≠ [] := by
  induction l with
  | nil => exact absurd rfl h
  | cons a r ih =>
    cases r with
    | nil =>
      simp [collapse]
    | cons b r2 =>
      cases ha : isSpc a with
      | true =>
        cases hb : isSpc b with
        | true =>
          rw [show collapse (a :: b :: r2) = collapse (b :: r2) from by
            simp [collapse, ha, hb]]
          exact ih (by simp)
        | false =>
          rw [show collapse (a :: b :: r2) = ' ' :: collapse (b :: r2) from by
            simp [collapse, ha, hb]]
          simp
      | false =>
        rw [show collapse (a :: b :: r2) = a :: collapse (b :: r2) from by
          simp [collapse, ha]]
        simp

theorem collapse_idem (l : List Char) : collapse (collapse l) = collapse l := by
  induction l with
  | nil => rfl
  | cons a r ih =>
    cases r with
    | nil =>
      cases ha : isSpc a with
      | true => simp [collapse, ha]
      | false => simp [collapse, ha]
    | cons b r2 =>
      cases ha : isSpc a with
      | true =>
        cases hb : isSpc b with
        | true =>
          rw [show collapse (a :: b :: r2) = collapse (b :: r2) from by
            simp [collapse, ha, hb]]
          exact ih
        | false =>
          rw [show collapse (a :: b :: r2) = ' ' :: collapse (b :: r2) from by
            simp [collapse, ha, hb]]
          have ih2 : collapse (collapse r2) = collapse r2 := by
            have h1 := ih
            rw [collapse_cons_nonspc hb] at h1
            rw [collapse_cons_nonspc hb] at h1
            exact List.cons_injective.eq_iff.mp h1
          rw [collapse_cons_nonspc hb]
          rw [show collapse (' ' :: b :: collapse r2) =
              ' ' :: collapse (b :: collapse r2) from by
            simp [collapse, hb]]
          rw [collapse_cons_nonspc hb, ih2]
      | false =>
        rw [show collapse (a :: b :: r2) = a :: collapse (b :: r2) from by
          simp [collapse, ha]]
        rw [collapse_cons_nonspc ha, ih]

theorem collapse_map_lower (l : List Char) :
    collapse (l.map lowerChar) = (collapse l).map lowerChar := by
  induction l with
  | nil => rfl
  | cons a r ih =>
    cases r with
    | nil =>
      cases ha : isSpc a with
      | true =>
        simp [collapse, isSpc_lowerChar, ha]
        decide
      | false =>
        simp [collapse, isSpc_lowerChar, ha]
    | cons b r2 =>
      cases ha : isSpc a with
      | true =>
        cases hb : isSpc b with
        | true =>
          rw [show collapse (a :: b :: r2) = collapse (b :: r2) from by
            simp [collapse, ha, hb]]
          rw [show ((a :: b :: r2).map lowerChar) =
            lowerChar a :: (b :: r2).map lowerChar from rfl]
          rw [show collapse (lowerChar a :: (b :: r2).map lowerChar) =
              collapse ((b :: r2).map lowerChar) from by
            simp [collapse, isSpc_lowerChar, ha, hb]]
          exact ih
        | false =>
          rw [show collapse (a :: b :: r2) = ' ' :: collapse (b :: r2) from by
            simp [collapse, ha, hb]]
          rw [show ((a :: b :: r2).map lowerChar) =
            lowerChar a :: (b :: r2).map lowerChar from rfl]
          rw [show collapse (lowerChar a :: (b :: r2).map lowerChar) =
              ' ' :: collapse ((b :: r2).map lowerChar) from by
            simp [collapse, isSpc_lowerChar, ha, hb]]
          rw [ih]
          rw [show (' ' :: collapse (b :: r2)).map lowerChar =
            lowerChar ' ' :: (collapse (b :: r2)).map lowerChar from rfl]
          rw [show lowerChar ' ' = ' ' from by decide]
      | false =>
        rw [show collapse (a :: b :: r2) = a :: collapse (b :: r2) from by
          simp [collapse, ha]]
        rw [show ((a :: b :: r2).map lowerChar) =
          lowerChar a :: (b :: r2).map lowerChar from rfl]
        rw [show collapse (lowerChar a :: (b :: r2).map lowerChar) =
            lowerChar a :: collapse ((b :: r2).map lowerChar) from by
          simp [collapse, isSpc_lowerChar, ha]]
        rw [ih]
        rfl

theorem map_lower_idem (l : List Char) :
    (l.map lowerChar).map lowerChar = l.map lowerChar := by
  induction l with
  | nil => rfl
  | cons a r ih => simp [ih, lowerChar_lowerChar]

theorem noLead_collapse {l : List Char} (h : noLeadSpc l) :
    noLeadSpc (collapse l) := by
  cases l with
  | nil => trivial
  | cons c r =>
    have hc : isSpc c = false := h
    rw [collapse_cons_nonspc hc]
    exact hc

theorem noTrail_cons_of {x : Char} {m : List Char} (hm : m ≠ [])
    (h : noTrailSpc m) : noTrailSpc (x :: m) := by
  unfold noTrailSpc at *
  rw [List.reverse_cons]
  cases hr : m.reverse with
  | nil => exact absurd (by simpa using congrArg List.reverse hr) hm
  | cons c t =>
    rw [hr] at h
    show noLeadSpc (c :: t ++ [x])
    exact h

theorem noTrail_of_cons_cons {a b : Char} {r : List Char}
    (h : noTrailSpc (a :: b :: r)) : noTrailSpc (b :: r) := by
  unfold noTrailSpc at *
  rw [List.reverse_cons] at h
  cases hr : (b :: r).reverse with
  | nil => simp at hr
  | cons c t =>
    rw [hr] at h
    exact h

theorem noTrail_collapse {l : List Char} (h : noTrailSpc l) :
    noTrailSpc (collapse l) := by
  induction l with
  | nil => trivial
  | cons a r ih =>
    cases r with
    | nil =>
      have ha : isSpc a = false := h
      rw [show collapse [a] = [a] from by simp [collapse, ha]]
      exact h
    | cons b r2 =>
      have h2 := noTrail_of_cons_cons h
      have ih2 := ih h2
      cases ha : isSpc a with
      | true =>
        cases hb : isSpc b with
        | true =>
          rw [show collapse (a :: b :: r2) = collapse (b :: r2) from by
            simp [collapse, ha, hb]]
          exact ih2
        | false =>
          rw [show collapse (a :: b :: r2) = ' ' :: collapse (b :: r2) from by
            simp [collapse, ha, hb]]
          exact noTrail_cons_of (collapse_ne_nil (by simp)) ih2
      | false =>
        rw [show collapse (a :: b :: r2) = a :: collapse (b :: r2) from by
          simp [collapse, ha]]
        exact noTrail_cons_of (collapse_ne_nil (by simp)) ih2

theorem stripL_eq_self {l : List Char} (h1 : noLeadSpc l) (h2 : noTrailSpc l) :
    stripL l = l := by
  unfold stripL
  rw [dropWhile_of_noLead h1, dropWhile_of_noLead h2, List.reverse_reverse]

theorem normalizeL_idem (l : List Char) :
    normalizeL (normalizeL l) = normalizeL l := by
  have h1 : noLeadSpc (normalizeL l) :=
    noLead_collapse (noLead_map (noLead_stripL l))
  have h2 : noTrailSpc (normalizeL l) :=
    noTrail_collapse (noTrail_map (noTrail_stripL l))
  show collapse ((stripL (normalizeL l)).map lowerChar) = normalizeL l
  rw [stripL_eq_self h1 h2]
  have h3 : (normalizeL l).map lowerChar = normalizeL l := by
    show (collapse ((stripL l).map lowerChar)).map lowerChar = normalizeL l
    rw [← collapse_map_lower, map_lower_idem]
    rfl
  rw [h3]
  exact collapse_idem _

theorem stripL_all_spc {l : List Char} (h : ∀ c ∈ l, isSpc c = true) :
    stripL l = [] := by
  have hd : l.dropWhile isSpc = [] := by
    induction l with
    | nil => rfl
    | cons c r ih =>
      rw [List.dropWhile_cons, if_pos (h c (by simp))]
      exact ih fun x hx => h x (by simp [hx])
  unfold stripL
  rw [hd]
  rfl

/-- **C7.** Text normalization is a total, deterministic function (it is a
Lean function) that is idempotent — `normalize(normalize(x)) = normalize(x)`
for every string `x` — and maps every empty or whitespace-only input to the
empty string. -/
theorem normalize_props_C7 (x : String) :
    normalize_text (normalize_text x) = normalize_text x ∧
    (x.data.all isSpc = true → normalize_text x = "") := by
  constructor
  · show String.mk (normalizeL (normalizeL x.data)) = String.mk (normalizeL x.data)
    rw [normalizeL_idem]
  · intro h
    have h0 : normalizeL x.data = [] := by
      unfold normalizeL
      rw [stripL_all_spc (by simpa using h)]
      rfl
    show String.mk (normalizeL x.data) = ""
    rw [h0]

/-- Witness for C7 at the whitespace-only input `" \t "` (and, for the
idempotence part, also at `" A  b "`). -/
theorem normalize_props_C7_witness :
    normalize_text (normalize_text " \t ") = normalize_text " \t " ∧
    normalize_text " \t " = "" ∧
    normalize_text (normalize_text " A  b ") = normalize_text " A  b " := by
  refine ⟨(normalize_props_C7 " \t ").1, (normalize_props_C7 " \t ").2 (by decide),
    (normalize_props_C7 " A  b ").1⟩

/-- **C1.** With `spamWindowSeconds = 30` and `spamRepeatThreshold = 2`,
for a fixed key starting from the empty tracker table, observations at
times 0, 10, 25 yield verdicts allow, flag, flag (the repeat count reaching
2 at t=10 and 3 at t=25); a fourth observation at t=61 yields allow with
the entry reset to count 1, and a fifth at t=70 flags again. -/
theorem spam_sequence_C1 :
    observe 30 2 (1, 2, "hi") 0 [] =
      (.allow, [((1, 2, "hi"), ⟨0, 1⟩)]) ∧
    observe 30 2 (1, 2, "hi") 10 [((1, 2, "hi"), ⟨0, 1⟩)] =
      (.flag, [((1, 2, "hi"), ⟨10, 2⟩)]) ∧
    observe 30 2 (1, 2, "hi") 25 [((1, 2, "hi"), ⟨10, 2⟩)] =
      (.flag, [((1, 2, "hi"), ⟨25, 3⟩)]) ∧
    observe 30 2 (1, 2, "hi") 61 [((1, 2, "hi"), ⟨25, 3⟩)] =
      (.allow, [((1, 2, "hi"), ⟨61, 1⟩)]) ∧
    observe 30 2 (1, 2, "hi") 70 [((1, 2, "hi"), ⟨61, 1⟩)] =
      (.flag, [((1, 2, "hi"), ⟨70, 2⟩)]) :=
  ⟨by decide, by decide, by decide, by decide, by decide⟩

/-! ### Dictionary and spam-tracker lemmas (towards C4) -/

theorem mem_dset {α β : Type} [DecidableEq α] {t : List (α × β)} {k : α}
    {v : β} {e : α × β} (h : e ∈ dset t k v) : e = (k, v) ∨ e ∈ t := by
  induction t with
  | nil => simpa [dset] using h
  | cons p rest ih =>
    obtain ⟨a, b⟩ := p
    simp only [dset] at h
    by_cases hk : a = k
    · rw [if_pos hk] at h
      rcases List.mem_cons.mp h with h | h
      · exact Or.inl h
      · exact Or.inr (List.mem_cons.mpr (Or.inr h))
    · rw [if_neg hk] at h
      rcases List.mem_cons.mp h with h | h
      · exact Or.inr (List.mem_cons.mpr (Or.inl h))
      · rcases ih h with h | h
        · exact Or.inl h
        · exact Or.inr (List.mem_cons.mpr (Or.inr h))

theorem dlookup_dset_self {α β : Type} [DecidableEq α] (t : List (α × β))
    (k : α) (v : β) : dlookup (dset t k v) k = some v := by
  induction t with
  | nil => simp [dset, dlookup]
  | cons p rest ih =>
    obtain ⟨a, b⟩ := p
    by_cases hk : a = k
    · simp [dset, dlookup, hk]
    · simp [dset, dlookup, hk, ih]

theorem dlookup_none_of_not_mem_keys {α β : Type} [DecidableEq α]
    {t : List (α × β)} {k : α} (h : k ∉ t.map Prod.fst) :
    dlookup t k = none := by
  induction t with
  | nil => rfl
  | cons p rest ih =>
    obtain ⟨a, b⟩ := p
    simp only [List.map_cons, List.mem_cons, not_or] at h
    simp only [dlookup]
    rw [if_neg fun heq => h.1 heq.symm]
    exact ih h.2

theorem keys_filter_subset (p : SpamKey × SeenMsg → Bool) (t : Table) :
    (t.filter p).map Prod.fst ⊆ t.map Prod.fst :=
  List.map_subset _ (List.filter_sublist _).subset

theorem dlookup_filter_none {p : SpamKey × SeenMsg → Bool} {t : Table}
    {k : SpamKey} {s : SeenMsg} (hnd : (t.map Prod.fst).Nodup)
    (hl : dlookup t k = some s) (hp : p (k, s) = false) :
    dlookup (t.filter p) k = none := by
  induction t with
  | nil => simp [dlookup] at hl
  | cons q rest ih =>
    obtain ⟨a, b⟩ := q
    simp only [List.map_cons, List.nodup_cons] at hnd
    simp only [dlookup] at hl
    by_cases hk : a = k
    · rw [if_pos hk] at hl
      have hb : b = s := Option.some.inj hl
      subst hb
      subst hk
      rw [List.filter_cons, if_neg (by simp [hp])]
      apply dlookup_none_of_not_mem_keys
      exact fun hmem => hnd.1 (keys_filter_subset p rest hmem)
    · rw [if_neg hk] at hl
      rw [List.filter_cons]
      by_cases hq : p (a, b) = true
      · rw [if_pos hq]
        simp only [dlookup]
        rw [if_neg hk]
        exact ih hnd.2 hl
      · rw [if_neg hq]
        exact ih hnd.2 hl

theorem mem_prune {window now : Int} {t : Table} {e : SpamKey × SeenMsg}
    (h : e ∈ prune_old window now t) :
    e ∈ t ∧ now - e.2.last_ts ≤ window := by
  unfold prune_old at h
  have h2 := List.mem_filter.mp h
  refine ⟨h2.1, ?_⟩
  have h3 := h2.2
  simp only [Bool.not_eq_true', decide_eq_false_iff_not, not_lt] at h3
  omega

theorem observe_snd (window : Int) (threshold : Nat) (key : SpamKey)
    (now : Int) (t : Table) :
    ∃ c : Nat, (observe window threshold key now t).2 =
      dset (prune_old window now t) key ⟨now, c⟩ := by
  unfold observe
  cases h : dlookup (prune_old window now t) key with
  | none => exact ⟨1, rfl⟩
  | some seen =>
    by_cases hc : now - seen.last_ts ≤ window
    · exact ⟨seen.count + 1, by simp [hc]⟩
    · exact ⟨1, by simp [hc]⟩

/-- **C4.** Every `observe` call first prunes every stale entry (under any
key): after `observe(key, now)` completes, every remaining entry `e`
satisfies `now - e.last_ts ≤ window`; and an observation of a key whose
previous observation is more than `window` old is treated as fresh — the
verdict is allow and the key's entry is reset to count 1, never inheriting
the old count. -/
theorem observe_prune_invariant_C4 (window : Int) (threshold : Nat)
    (key : SpamKey) (now : Int) (t : Table) (hw : 0 ≤ window)
    (hnd : (t.map Prod.fst).Nodup) :
    (∀ e ∈ (observe window threshold key now t).2,
      now - e.2.last_ts ≤ window) ∧
    (∀ s, dlookup t key = some s → window < now - s.last_ts →
      (observe window threshold key now t).1 = Verdict.allow ∧
      dlookup (observe window threshold key now t).2 key = some ⟨now, 1⟩) := by
  constructor
  · intro e he
    obtain ⟨c, hc⟩ := observe_snd window threshold key now t
    rw [hc] at he
    rcases mem_dset he with h | h
    · subst h
      simpa using hw
    · exact (mem_prune h).2
  · intro s hs hstale
    have hnone : dlookup (prune_old window now t) key = none := by
      unfold prune_old
      apply dlookup_filter_none hnd hs
      show (!decide (window < now - s.last_ts)) = false
      simp [hstale]
    unfold observe
    rw [hnone]
    exact ⟨rfl, dlookup_dset_self _ _ _⟩

/-- Witness for C4: window 30, a single entry last seen at t=0, observed
again at t=100. -/
theorem observe_prune_invariant_C4_witness :
    (∀ e ∈ (observe 30 2 (1, 2, "hi") 100 [((1, 2, "hi"), ⟨0, 3⟩)]).2,
      (100 : Int) - e.2.last_ts ≤ 30) ∧
    (observe 30 2 (1, 2, "hi") 100 [((1, 2, "hi"), ⟨0, 3⟩)]).1 =
      Verdict.allow ∧
    dlookup (observe 30 2 (1, 2, "hi") 100 [((1, 2, "hi"), ⟨0, 3⟩)]).2
      (1, 2, "hi") = some ⟨100, 1⟩ := by
  have h := observe_prune_invariant_C4 30 2 (1, 2, "hi") 100
    [((1, 2, "hi"), ⟨0, 3⟩)] (by decide) (by decide)
  exact ⟨h.1, (h.2 ⟨0, 3⟩ (by decide) (by decide)).1,
    (h.2 ⟨0, 3⟩ (by decide) (by decide)).2⟩

/-! ### Guard branch lemmas (towards C5, C2, C3) -/

/-- The fall-through branch of `guard`: when all of the mention, link and
badword checks fail, the message is handed to the spam tracker. -/
theorem guard_spam_branch (window : Int) (threshold : Nat) (st : Store)
    (now : Int) (gs : GuardState) (cid uid : Int) (ctype : ChatType)
    (text : String) (ht : text ≠ "")
    (hg : ctype = ChatType.group ∨ ctype = ChatType.supergroup)
    (hm : containsMention text = false) (hl : containsLink text = false)
    (hbw : matcherHits (get_badword_re st gs.cache cid).1 text = false) :
    guard window threshold st now gs ⟨cid, uid, ctype, some text⟩ =
      (if (observe window threshold (cid, uid, normalize_text text)
            now gs.seen).1 = .flag
        then .deleted else .allowed,
       ⟨(get_badword_re st gs.cache cid).2,
        (observe window threshold (cid, uid, normalize_text text)
          now gs.seen).2⟩) := by
  rcases hg with hg | hg <;> subst hg <;> simp [guard, ht, hm, hl, hbw]

/-- **C5.** `guard` evaluates the checks in the strict order mention, then
link, then badword, then repeat-spam, short-circuiting with a delete on the
first match; and every non-text message (`text` of `none` or `""`) or
message from a chat that is neither group nor supergroup is returned
immediately with no change to the spam table or the badword cache. -/
theorem guard_order_C5 (window : Int) (threshold : Nat) (st : Store)
    (now : Int) (gs : GuardState) (m : Msg) :
    (m.text = none →
      guard window threshold st now gs m = (.ignored, gs)) ∧
    (m.text = some "" →
      guard window threshold st now gs m = (.ignored, gs)) ∧
    (∀ text, m.text = some text → m.chat_type ≠ .group →
      m.chat_type ≠ .supergroup →
      guard window threshold st now gs m = (.ignored, gs)) ∧
    (∀ text, m.text = some text → text ≠ "" →
      (m.chat_type = .group ∨ m.chat_type = .supergroup) →
      containsMention text = true →
      guard window threshold st now gs m = (.deleted, gs)) ∧
    (∀ text, m.text = some text → text ≠ "" →
      (m.chat_type = .group ∨ m.chat_type = .supergroup) →
      containsMention text = false → containsLink text = true →
      guard window threshold st now gs m = (.deleted, gs)) ∧
    (∀ text, m.text = some text → text ≠ "" →
      (m.chat_type = .group ∨ m.chat_type = .supergroup) →
      containsMention text = false → containsLink text = false →
      matcherHits (get_badword_re st gs.cache m.chat_id).1 text = true →
      guard window threshold st now gs m =
        (.deleted, ⟨(get_badword_re st gs.cache m.chat_id).2, gs.seen⟩)) ∧
    (∀ text, m.text = some text → text ≠ "" →
      (m.chat_type = .group ∨ m.chat_type = .supergroup) →
      containsMention text = false → containsLink text = false →
      matcherHits (get_badword_re st gs.cache m.chat_id).1 text = false →
      guard window threshold st now gs m =
        (if (observe window threshold
              (m.chat_id, m.from_user, normalize_text text) now gs.seen).1
            = .flag
          then .deleted else .allowed,
         ⟨(get_badword_re st gs.cache m.chat_id).2,
          (observe window threshold
            (m.chat_id, m.from_user, normalize_text text) now gs.seen).2⟩)) := by
  obtain ⟨cid, uid, ctype, mtext⟩ := m
  refine ⟨?_, ?_, ?_, ?_, ?_, ?_, ?_⟩
  · intro h
    subst h
    rfl
  · intro h
    subst h
    simp [guard]
  · intro text h h1 h2
    subst h
    by_cases ht : text = ""
    · simp [guard, ht]
    · simp [guard, ht, h1, h2]
  · intro text h ht hg hm
    subst h
    rcases hg with hg | hg <;> subst hg <;> simp [guard, ht, hm]
  · intro text h ht hg hm hl
    subst h
    rcases hg with hg | hg <;> subst hg <;> simp [guard, ht, hm, hl]
  · intro text h ht hg hm hl hbw
    subst h
    rcases hg with hg | hg <;> subst hg <;> simp [guard, ht, hm, hl, hbw]
  · intro text h ht hg hm hl hbw
    subst h
    exact guard_spam_branch window threshold st now gs cid uid ctype text
      ht hg hm hl hbw

/-- Witness for C5: a mention is deleted with untouched state; a private
chat message is ignored with untouched state. -/
theorem guard_order_C5_witness :
    guard 30 2 [] 0 ⟨[], []⟩ ⟨1, 2, .group, some "hi @spammer"⟩ =
      (.deleted, ⟨[], []⟩) ∧
    guard 30 2 [] 0 ⟨[], []⟩ ⟨1, 2, .private_, some "hello"⟩ =
      (.ignored, ⟨[], []⟩) := by
  have h1 := guard_order_C5 30 2 [] 0 ⟨[], []⟩ ⟨1, 2, .group, some "hi @spammer"⟩
  have h2 := guard_order_C5 30 2 [] 0 ⟨[], []⟩ ⟨1, 2, .private_, some "hello"⟩
  exact ⟨h1.2.2.2.1 "hi @spammer" rfl (by decide) (Or.inl rfl) (by decide),
    h2.2.2.1 "hello" rfl (by decide) (by decide)⟩

/-- **C2, counterexample.** The whitespace-only group message `" "` passes
the mention, link and badword checks and normalizes to the empty string,
yet `guard` does not stop before tracking: it inserts an entry for the key
`(1, 2, "")` into the spam table — empty normalized text is tracked. -/
theorem empty_norm_tracked_C2_cex :
    containsMention " " = false ∧ containsLink " " = false ∧
    matcherHits (get_badword_re [] [] 1).1 " " = false ∧
    normalize_text " " = "" ∧
    (guard 30 2 [] 0 ⟨[], []⟩ ⟨1, 2, .group, some " "⟩).2.seen =
      [((1, 2, ""), ⟨0, 1⟩)] ∧
    (guard 30 2 [] 0 ⟨[], []⟩ ⟨1, 2, .group, some " "⟩).2.seen ≠ [] :=
  ⟨by decide, by decide, by decide, by decide, by decide, by decide⟩

/-- **C2, amended.** A group/supergroup text message that passes the
mention, link and badword checks and whose text normalizes to the empty
string is not exempted from tracking: `guard` calls the spam tracker with
the key `(chat_id, user_id, "")` exactly as for any other normalized text,
and the message is deleted iff that observation flags. -/
theorem empty_norm_tracked_C2 (window : Int) (threshold : Nat) (st : Store)
    (now : Int) (gs : GuardState) (m : Msg) (text : String)
    (h : m.text = some text) (ht : text ≠ "")
    (hg : m.chat_type = .group ∨ m.chat_type = .supergroup)
    (hm : containsMention text = false) (hl : containsLink text = false)
    (hbw : matcherHits (get_badword_re st gs.cache m.chat_id).1 text = false)
    (hn : normalize_text text = "") :
    guard window threshold st now gs m =
      (if (observe window threshold (m.chat_id, m.from_user, "")
            now gs.seen).1 = .flag
        then .deleted else .allowed,
       ⟨(get_badword_re st gs.cache m.chat_id).2,
        (observe window threshold (m.chat_id, m.from_user, "")
          now gs.seen).2⟩) := by
  obtain ⟨cid, uid, ctype, mtext⟩ := m
  subst h
  rw [guard_spam_branch window threshold st now gs cid uid ctype text
    ht hg hm hl hbw, hn]

/-- Witness for the amended C2 at the two-space message `"  "`. -/
theorem empty_norm_tracked_C2_witness :
    guard 30 2 [] 5 ⟨[(1, none)], []⟩ ⟨1, 7, .supergroup, some "  "⟩ =
      (.allowed, ⟨[(1, none)], [((1, 7, ""), ⟨5, 1⟩)]⟩) := by
  have h := empty_norm_tracked_C2 30 2 [] 5 ⟨[(1, none)], []⟩
    ⟨1, 7, .supergroup, some "  "⟩ "  " rfl (by decide) (Or.inr rfl)
    (by decide) (by decide) (by decide) (by decide)
  rw [h]
  decide

/-- **C3, counterexample.** `guard` has no bare-"start" alias: the group
message `"start"` (already trimmed and case-folded) is not dispatched to
the help responder — it runs through the deletion pipeline and the spam
tracker table changes (an entry for key `(1, 2, "start")` is inserted),
contradicting the claim that the tracker table is unchanged. -/
theorem bare_start_C3_cex :
    normalize_text "start" = "start" ∧
    (guard 30 2 [] 0 ⟨[], []⟩ ⟨1, 2, .group, some "start"⟩).2.seen =
      [((1, 2, "start"), ⟨0, 1⟩)] ∧
    (guard 30 2 [] 0 ⟨[], []⟩ ⟨1, 2, .group, some "start"⟩).2.seen ≠ [] :=
  ⟨by decide, by decide, by decide⟩

/-- **C3, amended.** There is no bare-"start" special case in `guard`: a
group message whose text is the bare word `"start"` goes through the normal
pipeline (its text contains no mention and no link, so only the badword and
repeat-spam checks can fire) and is tracked in the spam table under the key
`(chat_id, user_id, "start")`. Only the slash command `/start` — routed by
the command handler and excluded from `guard` by the command filter —
reaches the help responder. -/
theorem bare_start_C3 (window : Int) (threshold : Nat) (st : Store)
    (now : Int) (gs : GuardState) (cid uid : Int)
    (hbw : matcherHits (get_badword_re st gs.cache cid).1 "start" = false) :
    guard window threshold st now gs ⟨cid, uid, .group, some "start"⟩ =
      (if (observe window threshold (cid, uid, "start") now gs.seen).1 = .flag
        then .deleted else .allowed,
       ⟨(get_badword_re st gs.cache cid).2,
        (observe window threshold (cid, uid, "start") now gs.seen).2⟩) := by
  have h := guard_spam_branch window threshold st now gs cid uid .group
    "start" (by decide) (Or.inl rfl) (by decide) (by decide) hbw
  rw [h, show normalize_text "start" = "start" from by decide]

/-- Witness for the amended C3. -/
theorem bare_start_C3_witness :
    guard 30 2 [] 9 ⟨[], []⟩ ⟨4, 6, .group, some "start"⟩ =
      (.allowed, ⟨[(4, none)], [((4, 6, "start"), ⟨9, 1⟩)]⟩) := by
  have h := bare_start_C3 30 2 [] 9 ⟨[], []⟩ 4 6 (by decide)
  rw [h]
  decide

/-! ### Command-handler lemmas (towards C10) -/

theorem delete_one_not_mem {st : Store} {chat : Int} {w : String}
    (h : (chat, w) ∉ st) : delete_one st chat w = (st, 0) := by
  induction st with
  | nil => rfl
  | cons r rest ih =>
    obtain ⟨a, b⟩ := r
    simp only [List.mem_cons, not_or] at h
    simp only [delete_one]
    rw [if_neg ?_]
    · rw [ih h.2]
    · intro hc
      apply h.1
      rw [← hc.1, ← hc.2]

/-- **C10.** For a privileged sender, `/bad_del` with no arguments is not
rejected: the missing argument list is joined to the empty string, so a
store delete for the word `""` is issued in that chat (replying not-found
when no such row exists) — whereas `/bad_add` with no arguments replies
with a usage message and performs no store mutation. -/
theorem bad_del_no_args_C10 (chat : Int) (st : Store) (cache : Cache) :
    bad_del true chat [] st cache =
      ((delete_one st chat "").1,
        refresh_cache (delete_one st chat "").1 cache chat,
        if (delete_one st chat "").2 ≠ 0 then .deletedOk else .notFound) ∧
    ((chat, "") ∉ st →
      bad_del true chat [] st cache =
        (st, refresh_cache st cache chat, .notFound)) ∧
    bad_add true chat [] st cache = (st, cache, .usage) := by
  have hw : normalize_text (String.intercalate " " []) = "" := by decide
  refine ⟨?_, ?_, ?_⟩
  · simp [bad_del, hw]
  · intro hmem
    have hd := delete_one_not_mem hmem
    simp [bad_del, hw, hd]
  · simp [bad_add]

/-- Witness for C10 on a one-row store holding a different word. -/
theorem bad_del_no_args_C10_witness :
    bad_del true 1 [] [(1, "x")] [] =
      ([(1, "x")], refresh_cache [(1, "x")] [] 1, .notFound) ∧
    bad_add true 1 [] [(1, "x")] [] = ([(1, "x")], [], .usage) := by
  have h := bad_del_no_args_C10 1 [(1, "x")] []
  exact ⟨h.2.1 (by decide), h.2.2⟩

/-! ### Badword-matcher lemmas (towards C6) -/

theorem wordAt_map (l : List Char) (i : Nat) :
    wordAt (l.map lowerChar) i = wordAt l i := by
  unfold wordAt
  rw [List.get?_map]
  cases l.get? i with
  | none => rfl
  | some c => exact wordChar_lowerChar c

theorem map_lower_take (l : List Char) (n : Nat) :
    (l.map lowerChar).take n = (l.take n).map lowerChar :=
  (List.map_take lowerChar l n).symm

theorem map_lower_drop (l : List Char) (n : Nat) :
    (l.map lowerChar).drop n = (l.drop n).map lowerChar :=
  (List.map_drop lowerChar l n).symm

theorem hitAt_iff (l : List Char) (i : Nat) (w : List Char) :
    hitAt l i w = true ↔
      i + w.length ≤ l.length ∧
      ((l.drop i).take w.length).map lowerChar = w.map lowerChar ∧
      (i = 0 ∨ wordAt l (i - 1) = false) ∧
      wordAt l (i + w.length) = false := by
  unfold hitAt ciEqList
  simp only [Bool.and_eq_true, decide_eq_true_eq, Bool.not_eq_true']
  constructor
  · rintro ⟨⟨⟨h1, h2⟩, h3⟩, h4⟩
    refine ⟨h1, h2, ?_, h4⟩
    by_cases hi : i = 0
    · exact Or.inl hi
    · rw [if_neg hi] at h3
      exact Or.inr (by simpa using h3)
  · rintro ⟨h1, h2, h3, h4⟩
    refine ⟨⟨⟨h1, h2⟩, ?_⟩, h4⟩
    rcases h3 with h3 | h3
    · rw [if_pos h3]
    · by_cases hi : i = 0
      · rw [if_pos hi]
      · rw [if_neg hi]
        simpa using h3

theorem matcherSearch_iff (ws : List String) (s : String) :
    matcherSearch ws s = true ↔
      ∃ i w, w ∈ ws ∧ i + w.data.length ≤ s.data.length ∧
        ((s.data.drop i).take w.data.length).map lowerChar =
          w.data.map lowerChar ∧
        (i = 0 ∨ wordAt s.data (i - 1) = false) ∧
        wordAt s.data (i + w.data.length) = false := by
  unfold matcherSearch
  rw [List.any_eq_true]
  constructor
  · rintro ⟨i, hi, h2⟩
    obtain ⟨w, hw, h3⟩ := List.any_eq_true.mp h2
    exact ⟨i, w, hw, (hitAt_iff _ _ _).mp h3⟩
  · rintro ⟨i, w, hw, h⟩
    refine ⟨i, List.mem_range.mpr ?_, List.any_eq_true.mpr
      ⟨w, hw, (hitAt_iff _ _ _).mpr h⟩⟩
    omega

theorem hitAt_lower (l : List Char) (i : Nat) (w : List Char) :
    hitAt (l.map lowerChar) i w = hitAt l i w := by
  unfold hitAt ciEqList
  rw [List.length_map, wordAt_map, wordAt_map, map_lower_drop, map_lower_take,
    map_lower_idem]

theorem matcherSearch_lower (ws : List String) (s : String) :
    matcherSearch ws (lowerStr s) = matcherSearch ws s := by
  unfold matcherSearch
  show (List.range ((s.data.map lowerChar).length + 1)).any _ =
    (List.range (s.data.length + 1)).any _
  rw [List.length_map]
  congr 1
  funext i
  congr 1
  funext w
  exact hitAt_lower s.data i w.data

/-- **C6.** `getMatcher` returns the cached matcher when present; on a miss
it loads the chat's words from the store, builds the matcher and caches it.
A built matcher lists exactly the distinct stored words, longest first; it
matches a text iff some stored word occurs in it case-insensitively with no
word character adjacent on either side (whole-word boundaries); it is
case-insensitive. When the store holds zero words the cached value is the
explicit `none` marker — present in the cache, distinct from an absent key —
and that marker never matches. -/
theorem badword_matcher_C6 (st : Store) (cache : Cache) (chat : Int) :
    (∀ v, dlookup cache chat = some v →
      get_badword_re st cache chat = (v, cache)) ∧
    (dlookup cache chat = none →
      get_badword_re st cache chat =
        (build_re (storeWords st chat), refresh_cache st cache chat) ∧
      dlookup (get_badword_re st cache chat).2 chat =
        some (build_re (storeWords st chat))) ∧
    (dlookup cache chat = none → storeWords st chat = [] →
      dlookup (get_badword_re st cache chat).2 chat = some none ∧
      dlookup (get_badword_re st cache chat).2 chat ≠ none) ∧
    (∀ s, matcherHits none s = false) ∧
    (∀ ws l, build_re ws = some l →
      l.Sorted lenGE ∧ ∀ w, w ∈ l ↔ w ∈ ws) ∧
    (∀ ws s, matcherSearch ws s = true ↔
      ∃ i w, w ∈ ws ∧ i + w.data.length ≤ s.data.length ∧
        ((s.data.drop i).take w.data.length).map lowerChar =
          w.data.map lowerChar ∧
        (i = 0 ∨ wordAt s.data (i - 1) = false) ∧
        wordAt s.data (i + w.data.length) = false) ∧
    (∀ ws s, matcherSearch ws (lowerStr s) = matcherSearch ws s) := by
  refine ⟨?_, ?_, ?_, fun s => rfl, ?_, matcherSearch_iff, matcherSearch_lower⟩
  · intro v h
    simp [get_badword_re, h]
  · intro h
    simp [get_badword_re, refresh_cache, h, dlookup_dset_self]
  · intro h hs
    have h2 : get_badword_re st cache chat =
        (build_re (storeWords st chat), refresh_cache st cache chat) := by
      simp [get_badword_re, refresh_cache, h, dlookup_dset_self]
    rw [h2, hs]
    simp only [build_re, refresh_cache, hs]
    constructor
    · exact dlookup_dset_self _ _ _
    · rw [dlookup_dset_self]
      simp
  · intro ws l h
    cases ws with
    | nil => simp [build_re] at h
    | cons a as =>
      have hl : l = List.insertionSort lenGE (a :: as).dedup :=
        (Option.some.inj h).symm
      subst hl
      refine ⟨List.sorted_insertionSort lenGE _, fun w => ?_⟩
      rw [(List.perm_insertionSort lenGE _).mem_iff, List.mem_dedup]

/-- Witness for C6: a concrete miss that builds and caches a two-word
matcher (longest first), a concrete hit on the `none` marker, and the
spec's longer-word example: `{"ab","abc"}` does not match `"xabcx"` but
matches `"abc def"`. -/
theorem badword_matcher_C6_witness :
    get_badword_re [(1, "ab"), (1, "abc")] [] 1 =
      (some ["abc", "ab"], [(1, some ["abc", "ab"])]) ∧
    get_badword_re [] [(5, none)] 5 = (none, [(5, none)]) ∧
    matcherSearch ["abc", "ab"] "abc def" = true ∧
    matcherSearch ["abc", "ab"] "xabcx" = false := by
  have h1 := (badword_matcher_C6 [(1, "ab"), (1, "abc")] [] 1).2.1 rfl
  have h2 := (badword_matcher_C6 [] [(5, none)] 5).1 none rfl
  have h3 := (badword_matcher_C6 [] [] 0).2.2.2.2.2.1 ["abc", "ab"] "abc def"
  refine ⟨?_, h2, ?_, by decide⟩
  · rw [h1.1]
    decide
  · exact h3.mpr ⟨0, "abc", by decide, by decide, by decide, by decide, by decide⟩

/-! ### Mention-matcher lemmas (towards C8) -/

theorem mentionHit_append (pre rest : List Char) (prev : Option Char)
    (h : mentionHit (pre.getLast?.or prev) rest = true) :
    mentionHit prev (pre ++ rest) = true := by
  induction pre generalizing prev with
  | nil => simpa using h
  | cons c pre2 ih =>
    show mentionHit prev (c :: (pre2 ++ rest)) = true
    simp only [mentionHit]
    apply Bool.or_eq_true_iff.mpr
    right
    apply ih
    cases pre2 with
    | nil => simpa using h
    | cons d pre3 =>
      rw [List.getLast?_cons_cons] at h
      exact h

theorem wordRun_token {w post : List Char} (hw : ∀ c ∈ w, wordChar c = true)
    (hpost : post = [] ∨ ∃ c rest, post = c :: rest ∧ wordChar c = false) :
    wordRun (w ++ post) = w.length := by
  induction w with
  | nil =>
    rcases hpost with h | ⟨c, rest, hc, hcw⟩
    · simp [h, wordRun]
    · simp [hc, wordRun, hcw]
  | cons a r ih =>
    have ha := hw a (by simp)
    simp [wordRun, ha, ih fun c hc => hw c (by simp [hc])]

theorem mentionHit_at (prev : Option Char) (w post : List Char)
    (hp : prev = none ∨ ∃ p, prev = some p ∧ wordChar p = false)
    (hw : ∀ c ∈ w, wordChar c = true) (h2 : 2 ≤ w.length)
    (h32 : w.length ≤ 32)
    (hpost : post = [] ∨ ∃ c rest, post = c :: rest ∧ wordChar c = false) :
    mentionHit prev ('@' :: (w ++ post)) = true := by
  have hrun := wordRun_token hw hpost
  simp only [mentionHit]
  apply Bool.or_eq_true_iff.mpr
  left
  rw [hrun]
  rcases hp with hp | ⟨p, hp, hpw⟩ <;> subst hp
  · simp [h2, h32]
  · simp [h2, h32, hpw]

theorem wordAt_true_get {l : List Char} {j : Nat} (h : wordAt l j = true) :
    ∃ c, l.get? j = some c ∧ wordChar c = true := by
  unfold wordAt at h
  cases hg : l.get? j with
  | none => rw [hg] at h; exact absurd h (by simp)
  | some c => rw [hg] at h; exact ⟨c, rfl, h⟩

theorem mentionHit_false (l : List Char) : ∀ (prev : Option Char),
    (l.get? 0 = some '@' → ∃ p, prev = some p ∧ wordChar p = true) →
    (∀ i, l.get? (i + 1) = some '@' →
      ∃ c, l.get? i = some c ∧ wordChar c = true) →
    mentionHit prev l = false := by
  induction l with
  | nil => intro prev _ _; rfl
  | cons c rest ih =>
    intro prev h0 hi
    simp only [mentionHit]
    apply Bool.or_eq_false_iff.mpr
    constructor
    · by_cases hc : c = '@'
      · obtain ⟨p, hp, hpw⟩ := h0 (by simp [hc])
        subst hp
        simp [hpw]
      · simp [hc]
    · apply ih
      · intro hat
        obtain ⟨c2, hc2, hw2⟩ := hi 0 (by simpa using hat)
        have hcc : c = c2 := by simpa using hc2
        exact ⟨c, rfl, hcc.symm ▸ hw2⟩
      · intro i hat
        obtain ⟨c2, hc2, hw2⟩ := hi (i + 1) (by simpa using hat)
        exact ⟨c2, by simpa using hc2, hw2⟩

/-- **C8.** `containsMention` is true for every text containing a token
`@` followed by 2 to 32 word characters, the `@` not preceded by a word
character and the token not followed by a word character; and it is false
when every at-sign in the text is immediately preceded by a word character
(standalone `@handle` matches, the `@` of `user@example.com` does not). -/
theorem mention_spec_C8 (s : String) :
    (∀ pre w post, s.data = pre ++ '@' :: (w ++ post) →
      (pre.getLast? = none ∨ ∃ p, pre.getLast? = some p ∧ wordChar p = false) →
      (∀ c ∈ w, wordChar c = true) → 2 ≤ w.length → w.length ≤ 32 →
      (post = [] ∨ ∃ c rest, post = c :: rest ∧ wordChar c = false) →
      containsMention s = true) ∧
    ((∀ i, i < s.data.length → s.data.get? i = some '@' →
        i ≠ 0 ∧ wordAt s.data (i - 1) = true) →
      containsMention s = false) := by
  constructor
  · intro pre w post hsplit hpre hw h2 h32 hpost
    unfold containsMention
    rw [hsplit]
    apply mentionHit_append
    apply mentionHit_at _ _ _ ?_ hw h2 h32 hpost
    rcases hpre with h | ⟨p, hp, hpw⟩
    · left
      rw [h]
      rfl
    · right
      exact ⟨p, by rw [hp]; rfl, hpw⟩
  · intro h
    unfold containsMention
    apply mentionHit_false
    · intro hat
      have hlt : 0 < s.data.length := by
        cases hd : s.data with
        | nil => rw [hd] at hat; exact absurd hat (by simp)
        | cons a r => simp [hd]
      exact absurd rfl (h 0 hlt hat).1
    · intro i hat
      have hlt : i + 1 < s.data.length := by
        have := List.get?_eq_some.mp hat
        exact this.1
      have h3 := h (i + 1) hlt hat
      have h4 : wordAt s.data i = true := by simpa using h3.2
      exact wordAt_true_get h4

/-- Witness for C8 at the standalone mention `"hi @handle"` and the
embedded at-sign of `"user@example.com"`. -/
theorem mention_spec_C8_witness :
    containsMention "hi @handle" = true ∧
    containsMention "user@example.com" = false := by
  constructor
  · exact (mention_spec_C8 "hi @handle").1 ['h', 'i', ' ']
      ['h', 'a', 'n', 'd', 'l', 'e'] [] (by decide)
      (Or.inr ⟨' ', by decide, by decide⟩) (by decide) (by decide) (by decide)
      (Or.inl rfl)
  · exact (mention_spec_C8 "user@example.com").2 (by decide)

/-! ### Link-matcher lemmas (towards C9) -/

theorem all_map_lower (p : Char → Bool) (hp : ∀ c, p (lowerChar c) = p c)
    (l : List Char) : (l.map lowerChar).all p = l.all p := by
  induction l with
  | nil => rfl
  | cons c r ih => simp [hp, ih]

theorem isEmpty_map_lower (l : List Char) :
    (l.map lowerChar).isEmpty = l.isEmpty := by
  cases l <;> rfl

theorem tldPath_map (w : List Char) : tldPath (w.map lowerChar) = tldPath w := by
  unfold tldPath
  rw [List.length_map]
  congr 1
  funext m
  rw [map_lower_take, map_lower_drop,
    all_map_lower isAlphaChar isAlphaChar_lowerChar]
  congr 1
  cases hd : w.drop m with
  | nil => rfl
  | cons c rest =>
    simp only [List.map_cons]
    rw [decide_eq_decide.mpr (lowerChar_eq_iff c (by decide) (by decide)),
      all_map_lower nonSpc nonSpc_lowerChar]

theorem domSeqF_map : ∀ (fuel : Nat) (w : List Char),
    domSeqF fuel (w.map lowerChar) = domSeqF fuel w := by
  intro fuel
  induction fuel with
  | zero => intro w; rfl
  | succ n ih =>
    intro w
    simp only [domSeqF]
    rw [List.dropWhile_map, List.takeWhile_map,
      show (labelChar ∘ lowerChar) = labelChar from funext labelChar_lowerChar]
    cases hd : w.dropWhile labelChar with
    | nil => rfl
    | cons c tail =>
      simp only [List.map_cons]
      rw [decide_eq_decide.mpr (lowerChar_eq_iff c (by decide) (by decide)),
        tldPath_map, ih, isEmpty_map_lower]

theorem domSeq_map (w : List Char) : domSeq (w.map lowerChar) = domSeq w := by
  unfold domSeq
  rw [List.length_map, domSeqF_map]

theorem litPrefixCI_map (pat w : List Char) :
    litPrefixCI pat (w.map lowerChar) = litPrefixCI pat w := by
  induction pat generalizing w with
  | nil => rfl
  | cons p ps ih =>
    cases w with
    | nil => rfl
    | cons c cs =>
      simp only [List.map_cons, litPrefixCI]
      rw [lowerChar_lowerChar, ih]

theorem drop_all_nonSpc_map (w : List Char) (n : Nat) :
    ((w.map lowerChar).drop n).all nonSpc = (w.drop n).all nonSpc := by
  rw [map_lower_drop, all_map_lower nonSpc nonSpc_lowerChar]

theorem linkAltB_map (w : List Char) :
    linkAltB (w.map lowerChar) = linkAltB w := by
  unfold linkAltB
  rw [litPrefixCI_map, litPrefixCI_map, litPrefixCI_map, litPrefixCI_map,
    litPrefixCI_map, List.length_map, domSeq_map, drop_all_nonSpc_map,
    drop_all_nonSpc_map, drop_all_nonSpc_map, drop_all_nonSpc_map,
    drop_all_nonSpc_map]

theorem wordBdry_map (l : List Char) (i : Nat) :
    wordBdry (l.map lowerChar) i = wordBdry l i := by
  unfold wordBdry
  by_cases hi : i = 0
  · simp [hi, wordAt_map]
  · simp [hi, wordAt_map]

theorem slice_map (l : List Char) (i k : Nat) :
    ((l.map lowerChar).drop i).take k = ((l.drop i).take k).map lowerChar := by
  rw [map_lower_drop, map_lower_take]

theorem containsLink_lower (s : String) :
    containsLink (lowerStr s) = containsLink s := by
  have hd : (lowerStr s).data = s.data.map lowerChar := rfl
  unfold containsLink
  rw [hd, List.length_map]
  congr 1
  funext i
  congr 1
  funext j
  rw [wordBdry_map, wordBdry_map, slice_map, linkAltB_map]

/-- **C9.** Link detection returns true on `"check http://a.com"`,
`"visit www.b.org/x"`, `"join t.me/xyz"` and the bare domain
`"example.com"`, returns false on `"plain text"`, and is
case-insensitive. -/
theorem link_spec_C9 :
    containsLink "check http://a.com" = true ∧
    containsLink "visit www.b.org/x" = true ∧
    containsLink "join t.me/xyz" = true ∧
    containsLink "example.com" = true ∧
    containsLink "plain text" = false ∧
    ∀ s, containsLink (lowerStr s) = containsLink s :=
  ⟨by decide, by decide, by decide, by decide, by decide, containsLink_lower⟩

end Bot
